import Mathlib

/-!
Verification development for the nipeep memoization engine.

The definitions below are a shallow embedding of the cache layer of
`nipeep.py`: input fingerprinting (`hash_file`, `_hash`, `hash_inputs`),
cache-entry naming in `PipeFunc.__call__`, and the `Memory` class with its
usage logs and garbage collection (`_log_name`, `clear_previous_runs`,
`clear_runs_since`, `_clear_all_but`).  File contents are modelled as
character lists, filesystem paths compared by the Python string order as
byte lists, and the disk as explicit state.
-/

namespace Nipeep

/-- A Python value supplied as a keyword argument: a string, an integer, or a
list of values.  These are the shapes the fingerprinting code distinguishes. -/
inductive Value where
  | str : String → Value
  | intV : Int → Value
  | listV : List Value → Value
deriving Repr

mutual

/-- Decidable equality for `Value` (the deriving handler does not treat the
nested list). -/
def Value.decEq : (a b : Value) → Decidable (a = b)
  | .str a, .str b =>
    if h : a = b then .isTrue (by rw [h]) else .isFalse fun hc => h (Value.str.inj hc)
  | .str _, .intV _ => .isFalse nofun
  | .str _, .listV _ => .isFalse nofun
  | .intV _, .str _ => .isFalse nofun
  | .intV a, .intV b =>
    if h : a = b then .isTrue (by rw [h]) else .isFalse fun hc => h (Value.intV.inj hc)
  | .intV _, .listV _ => .isFalse nofun
  | .listV _, .str _ => .isFalse nofun
  | .listV _, .intV _ => .isFalse nofun
  | .listV as, .listV bs =>
    match Value.decEqList as bs with
    | .isTrue h => .isTrue (by rw [h])
    | .isFalse h => .isFalse fun hc => h (Value.listV.inj hc)

/-- Decidable equality for lists of `Value`. -/
def Value.decEqList : (as bs : List Value) → Decidable (as = bs)
  | [], [] => .isTrue rfl
  | [], _ :: _ => .isFalse nofun
  | _ :: _, [] => .isFalse nofun
  | a :: as, b :: bs =>
    match Value.decEq a b, Value.decEqList as bs with
    | .isTrue h1, .isTrue h2 => .isTrue (by rw [h1, h2])
    | .isFalse h1, _ => .isFalse fun hc => h1 (List.cons.inj hc).1
    | _, .isFalse h2 => .isFalse fun hc => h2 (List.cons.inj hc).2

end

instance : DecidableEq Value := Value.decEq

/-- A trait from the interface `input_spec`: either a `File` trait (with its
`exists` flag), a `List` trait with its single inner trait
(`trait.inner_traits[0]`), or any other trait kind. -/
inductive Trait where
  | file : Bool → Trait
  | listTrait : Trait → Trait
  | scalar : Trait
deriving DecidableEq, Repr

/-- One file on disk: its modification time and its content.  `os.stat` only
exposes the mtime to the code under study. -/
structure FileRec where
  mtime : Nat
  content : List Char
deriving DecidableEq, Repr

/-- The disk as seen by `os.stat`: a map from file name to file record. -/
def Disk : Type := String → FileRec

/-- The static representation produced by the hashing helpers: either a raw
value, a `(filename, st_mtime)` pair, or a list of representations. -/
inductive HashVal where
  | val : Value → HashVal
  | pathMtime : String → Nat → HashVal
  | listH : List HashVal → HashVal
deriving Repr

mutual

/-- Decidable equality for `HashVal`. -/
def HashVal.decEq : (a b : HashVal) → Decidable (a = b)
  | .val a, .val b =>
    if h : a = b then .isTrue (by rw [h]) else .isFalse fun hc => h (HashVal.val.inj hc)
  | .val _, .pathMtime _ _ => .isFalse nofun
  | .val _, .listH _ => .isFalse nofun
  | .pathMtime _ _, .val _ => .isFalse nofun
  | .pathMtime p a, .pathMtime q b =>
    if h : p = q ∧ a = b then .isTrue (by rw [h.1, h.2])
    else .isFalse fun hc => h ⟨(HashVal.pathMtime.inj hc).1, (HashVal.pathMtime.inj hc).2⟩
  | .pathMtime _ _, .listH _ => .isFalse nofun
  | .listH _, .val _ => .isFalse nofun
  | .listH _, .pathMtime _ _ => .isFalse nofun
  | .listH as, .listH bs =>
    match HashVal.decEqList as bs with
    | .isTrue h => .isTrue (by rw [h])
    | .isFalse h => .isFalse fun hc => h (HashVal.listH.inj hc)

/-- Decidable equality for lists of `HashVal`. -/
def HashVal.decEqList : (as bs : List HashVal) → Decidable (as = bs)
  | [], [] => .isTrue rfl
  | [], _ :: _ => .isFalse nofun
  | _ :: _, [] => .isFalse nofun
  | a :: as, b :: bs =>
    match HashVal.decEq a b, HashVal.decEqList as bs with
    | .isTrue h1, .isTrue h2 => .isTrue (by rw [h1, h2])
    | .isFalse h1, _ => .isFalse fun hc => h1 (List.cons.inj hc).1
    | _, .isFalse h2 => .isFalse fun hc => h2 (List.cons.inj hc).2

end

instance : DecidableEq HashVal := HashVal.decEq

/-- `hash_file(filename, exists)`: with `exists` set it stats the file and
returns the `(filename, st_mtime)` pair; otherwise it returns the value
unchanged.  `os.stat` on a non-string raises, modelled as `none`. -/
def hash_file (disk : Disk) (filename : Value) (ex : Bool) : Option HashVal :=
  if ex then
    match filename with
    | .str s => some (.pathMtime s (disk s).mtime)
    | _ => none
  else some (.val filename)

mutual

/-- `_hash(value, trait)`: dispatch on the trait type — `File` goes through
`hash_file` with the trait's `exists` flag, `List` maps `_hash` with the inner
trait over the elements, anything else is returned as is.  A runtime type
error (non-list value under a `List` trait) is modelled as `none`. -/
def pyHash (disk : Disk) : Trait → Value → Option HashVal
  | .file ex, v => hash_file disk v ex
  | .listTrait t, .listV vs => (pyHashList disk t vs).map HashVal.listH
  | .listTrait _, _ => none
  | .scalar, v => some (.val v)

/-- The list comprehension `[_hash(v, trait.inner_traits[0]) for v in value]`. -/
def pyHashList (disk : Disk) (t : Trait) : List Value → Option (List HashVal)
  | [] => some []
  | v :: vs =>
    match pyHash disk t v, pyHashList disk t vs with
    | some h, some hs => some (h :: hs)
    | _, _ => none

end

mutual

/-- A value is well shaped for a trait: `File` with `exists` demands a string
(`os.stat` argument), `List` demands a list of well-shaped elements.  This is
the shape discipline `interface.inputs.set(**kwargs)` enforces before
`hash_inputs` runs. -/
def conforms : Trait → Value → Bool
  | .file ex, v =>
    if ex then
      match v with
      | .str _ => true
      | _ => false
    else true
  | .listTrait t, .listV vs => conformsList t vs
  | .listTrait _, _ => false
  | .scalar, _ => true

/-- Elementwise `conforms` over a list value. -/
def conformsList (t : Trait) : List Value → Bool
  | [] => true
  | v :: vs => conforms t v && conformsList t vs

end

/-- The `ValueError` message raised for an input name absent from the traits. -/
def invalidParamMsg (name func_name : String) : String :=
  "Invalid parameter " ++ name ++ " for " ++ func_name

/-- `hash_inputs(inputs, input_spec, func_name)`: walk the input mapping in
iteration order, fail on the first name absent from the spec traits, otherwise
record `_hash(value, trait)` under the name.  The input mapping and the trait
dictionary are rendered as association lists. -/
def hash_inputs (disk : Disk) (inputs : List (String × Value))
    (input_spec : List (String × Trait)) (func_name : String) :
    Except String (List (String × HashVal)) :=
  inputs.mapM fun nv =>
    match input_spec.lookup nv.1 with
    | none => .error (invalidParamMsg nv.1 func_name)
    | some t =>
      match pyHash disk t nv.2 with
      | none => .error "TypeError"
      | some h => .ok (nv.1, h)

/-- The lookup-or-true conjunct used as a hypothesis: the value conforms to
whatever trait the spec declares for its name. -/
def confLookup (input_spec : List (String × Trait)) (nv : String × Value) : Bool :=
  match input_spec.lookup nv.1 with
  | some t => conforms t nv.2
  | none => true

/-- The value of one successfully fingerprinted input: the name paired with
the `_hash` of its value under its declared trait. -/
def fingerOf (disk : Disk) (input_spec : List (String × Trait))
    (nv : String × Value) : String × HashVal :=
  (nv.1,
    match input_spec.lookup nv.1 with
    | some t => (pyHash disk t nv.2).getD (.val nv.2)
    | none => .val nv.2)

mutual

/-- Stable serialization of a `Value`, used below to model `pickle.dumps`. -/
def serValue : Value → String
  | .str s => "s:" ++ s
  | .intV i => "i:" ++ toString i
  | .listV vs => "(" ++ serValueList vs ++ ")"

/-- Serialization of a list of values. -/
def serValueList : List Value → String
  | [] => ""
  | v :: vs => serValue v ++ ";" ++ serValueList vs

end

mutual

/-- Stable serialization of a `HashVal`. -/
def serHash : HashVal → String
  | .val v => "v:" ++ serValue v
  | .pathMtime p t => "m:" ++ p ++ "@" ++ toString t
  | .listH hs => "(" ++ serHashList hs ++ ")"

/-- Serialization of a list of hash values. -/
def serHashList : List HashVal → String
  | [] => ""
  | h :: hs => serHash h ++ ";" ++ serHashList hs

end

/-- Serialization of one fingerprint-dictionary entry. -/
def serPair (nh : String × HashVal) : String :=
  "<" ++ nh.1 ++ "=" ++ serHash nh.2 ++ ">"

/-- `pickle.dumps` applied to the fingerprint dictionary: pickle serializes a
dict entry by entry in the dict's iteration order, so the model serializes
the entry sequence exactly as `hash_inputs` produced it.  CPython 2 derives a
dict's iteration order from its insertion history and the key hashes, so two
dicts that are equal as mappings need not iterate — or pickle — identically;
no canonicalization (such as sorting the items) happens anywhere in the
code. -/
def pickleDumps (fp : List (String × HashVal)) : String :=
  String.join (fp.map serPair)

/-- The md5 hexdigest, modelled as a deterministic digest of the serialized
bytes (collision behaviour of md5 is not modelled): what matters for the
claims is that the digest is a function of the pickled bytes alone. -/
def md5hex (s : String) : String :=
  toString (s.data.foldl (fun a c => (a * 131 + c.toNat) % 18446744073709551616) 7)

/-- The cache-entry name built in `PipeFunc.__call__`:
`module.replace('.', '-') + '-' + class name + '_' + md5 of the pickled
fingerprint dictionary` (the single-character `replace` is rendered as a
character map). -/
def cacheEntryName (module cls : String) (fp : List (String × HashVal)) : String :=
  String.mk (module.data.map fun c => if c = '.' then '-' else c) ++ "-" ++ cls ++ "_" ++
    md5hex (pickleDumps fp)

/-! ## The Memory state: cache root contents and usage logs -/

/-- One day-log file `<root>/log.<year>/<month>/<day>.log` and its content. -/
structure DayLog where
  year : Nat
  month : Nat
  day : Nat
  content : List Char
deriving DecidableEq, Repr

/-- The cache root as the `Memory` methods see it: the cache-entry directory
names, the content of `log.current`, the day-log files, and the year and
month log directories created so far. -/
structure MemState where
  entryDirs : List (List Char)
  current : List Char
  dayLogs : List DayLog
  yearDirs : List Nat
  monthDirs : List (Nat × Nat)
deriving DecidableEq, Repr

/-- The empty cache root, as `Memory.__init__` leaves a freshly created one. -/
def emptyMem : MemState :=
  { entryDirs := [], current := [], dayLogs := [], yearDirs := [], monthDirs := [] }

/-- What a path can be on disk. -/
inductive PathKind where
  | absent : PathKind
  | fileP : PathKind
  | dirP : PathKind
deriving DecidableEq, Repr

/-- `os.path.exists` on a modelled path. -/
def path_exists : PathKind → Bool
  | .absent => false
  | _ => true

/-- `os.path.isdir` on a modelled path. -/
def isdir : PathKind → Bool
  | .dirP => true
  | _ => false

/-- `Memory.__init__(base_dir)`: the root `<base_dir>/nipype_mem` is created
if absent, a non-directory root raises, and `log.current` is opened with mode
w, truncating it; nothing else in the root is touched.  `pre` is whatever the
root directory already holds when it exists. -/
def memoryInit (root : PathKind) (pre : MemState) : Except String MemState :=
  match root with
  | .absent => .ok emptyMem
  | .dirP => .ok { pre with current := [] }
  | .fileP => .error "base_dir should be a directory"

/-- `PipeFunc.__init__`: the interface check, then the dead base_dir guard
`not os.path.exists(base_dir) and os.path.isdir(base_dir)`. -/
def pipeFuncInit (interface_ok : Bool) (base_dir : PathKind) : Except String Unit :=
  if !interface_ok then
    .error "the interface argument should be a nipype interface class"
  else if !(path_exists base_dir) && isdir base_dir then
    .error "base_dir should be an existing directory"
  else .ok ()

/-- Insert a directory if it does not exist yet: `os.mkdir` wrapped in
try/except OSError with the exception swallowed. -/
def insertNew {α : Type} [DecidableEq α] (x : α) (xs : List α) : List α :=
  if x ∈ xs then xs else xs ++ [x]

/-- Append a line to the day log for a date, creating the file if it is not
there yet (open in mode a). -/
def appendDay (logs : List DayLog) (y m d : Nat) (line : List Char) : List DayLog :=
  if logs.any fun l => l.year == y && l.month == m && l.day == d then
    logs.map fun l =>
      if l.year == y && l.month == m && l.day == d then
        { l with content := l.content ++ line }
      else l
  else logs ++ [⟨y, m, d, line⟩]

/-- `Memory._log_name(name)` on a given local date: append `name + newline`
to `log.current`, make the year and month directories on demand, and append
the same line to the day log. -/
def log_name (s : MemState) (y m d : Nat) (name : List Char) : MemState :=
  { s with
    current := s.current ++ name ++ ['\n'],
    yearDirs := insertNew y s.yearDirs,
    monthDirs := insertNew (y, m) s.monthDirs,
    dayLogs := appendDay s.dayLogs y m d (name ++ ['\n']) }

/-- Iterating a Python file yields its lines, each keeping its terminating
newline; a final unterminated chunk is still a line. -/
def pyLinesAux : List Char → List Char → List (List Char)
  | acc, [] => if acc.isEmpty then [] else [acc.reverse]
  | acc, c :: cs =>
    if c = '\n' then (acc.reverse ++ ['\n']) :: pyLinesAux [] cs
    else pyLinesAux (c :: acc) cs

/-- The lines of a file content. -/
def pyLines (content : List Char) : List (List Char) :=
  pyLinesAux [] content

/-- Read a usage log back as the keys it records: `l[:-1] for l in open(f)`. -/
def keysOfLog (content : List Char) : List (List Char) :=
  (pyLines content).map List.dropLast

/-- Does a directory name start with `log.`? -/
def startsWithLog (n : List Char) : Bool :=
  "log.".toList.isPrefixOf n

/-- The name of a year log directory `log.%i`. -/
def yearDirName (y : Nat) : List Char :=
  "log.".toList ++ Nat.toDigits 10 y

/-- `os.listdir(self.base_dir)`: the cache entries plus `log.current` plus
the year log directories. -/
def listingOf (s : MemState) : List (List Char) :=
  s.entryDirs ++ "log.current".toList :: s.yearDirs.map yearDirName

/-- The deletion pass of `Memory._clear_all_but(runs)`: keep the listing
entries not named `log.*`, form `set(runs).symmetric_difference(dirs)`, and
remove each member that exists on disk.  Returns the names actually passed to
`shutil.rmtree`. -/
def clear_all_but (listing : List (List Char)) (runs : List (List Char)) :
    List (List Char) :=
  let dirs := listing.filter fun d => !(startsWithLog d)
  let old_dirs :=
    (runs.filter fun r => decide (r ∉ dirs)) ++ (dirs.filter fun d => decide (d ∉ runs))
  old_dirs.filter fun d => decide (d ∈ listing)

/-- Apply a list of `shutil.rmtree` deletions to the state: any deleted name
disappears from the listing, and removing a year log directory removes the
day logs and month directories under it. -/
def remTree (s : MemState) (deleted : List (List Char)) : MemState :=
  { s with
    entryDirs := s.entryDirs.filter fun d => decide (d ∉ deleted),
    yearDirs := s.yearDirs.filter fun y => decide (yearDirName y ∉ deleted),
    monthDirs := s.monthDirs.filter fun ym => decide (yearDirName ym.1 ∉ deleted),
    dayLogs := s.dayLogs.filter fun l => decide (yearDirName l.year ∉ deleted) }

/-- `Memory.clear_previous_runs`: read the retained keys from `log.current`
and run the deletion pass. -/
def clear_previous_runs (s : MemState) : MemState :=
  remTree s (clear_all_but (listingOf s) (keysOfLog s.current))

/-! ## Day-log paths and the Python string order on them -/

/-- The bytes of a literal string fragment of a path. -/
def strBytes (s : String) : List Nat :=
  s.toList.map Char.toNat

/-- The decimal digit bytes of `%i`: no padding, most significant first. -/
def digitsOf (n : Nat) : List Nat :=
  if h : n < 10 then [48 + n] else digitsOf (n / 10) ++ [48 + n % 10]
termination_by n
decreasing_by exact Nat.div_lt_self (by omega) (by omega)

/-- The decimal digit bytes of a zero-padded `k`-digit field such as `%02i`,
most significant first. -/
def padDigits : Nat → Nat → List Nat
  | 0, _ => []
  | k + 1, n => (48 + n / 10 ^ k % 10) :: padDigits k n

/-- The Python byte-string order: lexicographic on byte values, a strict
prefix sorting before its extensions. -/
def strLt : List Nat → List Nat → Bool
  | _, [] => false
  | [], _ :: _ => true
  | a :: as, b :: bs =>
    if a < b then true else if b < a then false else strLt as bs

/-- The path `'%s/log.%i/%02i/%02i.log' % (base_dir, year, month, day)` as a
byte list; it is both the cutoff path and the shape of every day-log path the
glob `log.*/*/*.log` can return for logs written by `_log_name`. -/
def dayLogPath (base : List Nat) (y m d : Nat) : List Nat :=
  base ++ strBytes "/log." ++ digitsOf y ++ strBytes "/" ++ padDigits 2 m ++
    strBytes "/" ++ padDigits 2 d ++ strBytes ".log"

/-- Date order as the specification states it: strictly before the cutoff. -/
def dateBefore (y1 m1 d1 y2 m2 d2 : Nat) : Prop :=
  y1 < y2 ∨ (y1 = y2 ∧ (m1 < m2 ∨ (m1 = m2 ∧ d1 < d2)))

instance (y1 m1 d1 y2 m2 d2 : Nat) : Decidable (dateBefore y1 m1 d1 y2 m2 d2) := by
  unfold dateBefore; infer_instance

/-- A day log survives the cutoff when its path is not strictly below the
cutoff path in the Python string order (`log_name < cut_off_file` is false). -/
def keepSince (base : List Nat) (year month day : Nat) (l : DayLog) : Bool :=
  !(strLt (dayLogPath base l.year l.month l.day) (dayLogPath base year month day))

/-- The `recently_run` set of `clear_runs_since`: the union of the lines of
every day log at or after the cutoff. -/
def recentlyRun (base : List Nat) (s : MemState) (year month day : Nat) :
    List (List Char) :=
  (s.dayLogs.filter (keepSince base year month day)).foldr
    (fun l acc => keysOfLog l.content ++ acc) []

/-- `Memory.clear_runs_since(day, month, year)` with the date arguments
already resolved: build the cutoff path, split the globbed day logs into
those strictly below the cutoff (to flush) and the rest (whose lines form the
retained set `recently_run`), run the deletion pass, then remove the flushed
log files. -/
def clear_runs_since (base : List Nat) (s : MemState) (year month day : Nat) :
    MemState :=
  let s1 := remTree s (clear_all_but (listingOf s) (recentlyRun base s year month day))
  { s1 with dayLogs := s1.dayLogs.filter (keepSince base year month day) }

/-! ## The cached call -/

/-- `PipeFunc.__call__(**kwargs)` for a `PipeFunc` produced by
`Memory.cache`: fingerprint the keyword arguments (a raised error
propagates), build the cache-entry name, run the node (`run` is the outcome
of `node.run()`, an opaque external execution; its exception propagates), and
only after a successful run report the name through the memory callback
`_log_name`.  Returns the call outcome and the resulting root state. -/
def pyCall {α : Type} (disk : Disk) (input_spec : List (String × Trait))
    (func_name module cls : String) (kwargs : List (String × Value))
    (run : Except String α) (y m d : Nat) (s : MemState) :
    Except String α × MemState :=
  match hash_inputs disk kwargs input_spec func_name with
  | .error e => (.error e, s)
  | .ok fp =>
    match run with
    | .error e => (.error e, s)
    | .ok out => (.ok out, log_name s y m d (cacheEntryName module cls fp).toList)

/-- Record a sequence of cache keys through one handle, in order. -/
def recordAll (y m d : Nat) (s : MemState) (ks : List (List Char)) : MemState :=
  ks.foldl (fun st k => log_name st y m d k) s

/-- The content of the day-log file for a date, empty if the file is not
there. -/
def dayLogContent (s : MemState) (y m d : Nat) : List Char :=
  match s.dayLogs.find? (fun l => l.year == y && l.month == m && l.day == d) with
  | some l => l.content
  | none => []

/-- The file content obtained by appending each key as one terminated line. -/
def linesJoin (ks : List (List Char)) : List Char :=
  (ks.map fun k => k ++ ['\n']).flatten

/-! ## Basic lemmas -/

theorem startsWithLog_yearDirName (y : Nat) : startsWithLog (yearDirName y) = true := by
  unfold startsWithLog yearDirName
  exact List.isPrefixOf_iff_prefix.mpr (List.prefix_append _ _)

theorem startsWithLog_logCurrent : startsWithLog "log.current".toList = true := by
  decide

theorem clear_all_but_mem (listing runs : List (List Char))
    (hruns : ∀ r ∈ runs, startsWithLog r = false) (d : List Char) :
    d ∈ clear_all_but listing runs ↔
      d ∈ listing ∧ startsWithLog d = false ∧ d ∉ runs := by
  show d ∈ List.filter _ (_ ++ _) ↔ _
  rw [List.mem_filter, List.mem_append, List.mem_filter]
  simp only [List.mem_filter, decide_eq_true_eq, Bool.not_eq_true']
  constructor
  · rintro ⟨⟨hr, hnd⟩ | ⟨⟨hl2, hlog⟩, hnr⟩, hl⟩
    · exact absurd ⟨hl, hruns d hr⟩ hnd
    · exact ⟨hl, hlog, hnr⟩
  · rintro ⟨hl, hlog, hr⟩
    exact ⟨Or.inr ⟨⟨hl, hlog⟩, hr⟩, hl⟩

/-- C1: garbage collection deletes exactly the on-disk cache-entry
directories (names not starting with `log.`) that are not in the retained
set; a retained key with no directory on disk is silently ignored, and the
deleted set is the one-sided difference on-disk-minus-retained, not a
symmetric difference. -/
theorem gc_deletes_one_sided_difference (listing runs : List (List Char))
    (hruns : ∀ r ∈ runs, startsWithLog r = false) :
    (∀ d, d ∈ clear_all_but listing runs ↔
       d ∈ listing ∧ startsWithLog d = false ∧ d ∉ runs)
    ∧ (∀ r ∈ runs, r ∉ listing → r ∉ clear_all_but listing runs) := by
  refine ⟨fun d => clear_all_but_mem listing runs hruns d, fun r hr hnl hmem => ?_⟩
  exact hnl ((clear_all_but_mem listing runs hruns r).mp hmem).1

theorem gc_deletes_one_sided_difference_witness :
    (∀ d, d ∈ clear_all_but [['a'], "log.current".toList] [['b']] ↔
       d ∈ [['a'], "log.current".toList] ∧ startsWithLog d = false ∧ d ∉ [['b']])
    ∧ (∀ r ∈ [['b']], r ∉ [['a'], "log.current".toList] →
       r ∉ clear_all_but [['a'], "log.current".toList] [['b']]) :=
  gc_deletes_one_sided_difference [['a'], "log.current".toList] [['b']] (by decide)

/-- C9: constructing a cache root creates the root directory when absent,
fails when the root path exists and is not a directory, and in the success
case leaves the pre-existing entries and day logs untouched, recreating only
`log.current`. -/
theorem memory_init_root (pre : MemState) :
    memoryInit .absent pre = .ok emptyMem
    ∧ memoryInit .fileP pre = .error "base_dir should be a directory"
    ∧ memoryInit .dirP pre = .ok { pre with current := [] }
    ∧ ({ pre with current := ([] : List Char) }).entryDirs = pre.entryDirs
    ∧ ({ pre with current := ([] : List Char) }).dayLogs = pre.dayLogs :=
  ⟨rfl, rfl, rfl, rfl, rfl⟩

/-- C10: the base_dir guard in `PipeFunc.__init__` tests
`not exists(base_dir) and isdir(base_dir)`, which no path state satisfies, so
with a valid interface class construction never raises the
base_dir error, whatever the path is. -/
theorem pipefunc_base_dir_check_vacuous :
    (∀ p, (!(path_exists p) && isdir p) = false)
    ∧ ∀ p, pipeFuncInit true p = .ok () := by
  constructor
  · intro p; cases p <;> rfl
  · intro p; cases p <;> rfl

/-! ## The current-run log round trip -/

theorem pyLinesAux_line (k : List Char) (hk : '\n' ∉ k) :
    ∀ (acc rest : List Char),
      pyLinesAux acc (k ++ '\n' :: rest) =
        ((acc.reverse ++ k) ++ ['\n']) :: pyLinesAux [] rest := by
  induction k with
  | nil =>
    intro acc rest
    simp [pyLinesAux]
  | cons c cs ih =>
    intro acc rest
    have hc : ¬(c = '\n') := fun h => hk (h ▸ List.mem_cons_self c cs)
    have hcs : '\n' ∉ cs := fun h => hk (List.mem_cons_of_mem c h)
    show pyLinesAux acc (c :: (cs ++ '\n' :: rest)) = _
    rw [pyLinesAux, if_neg hc, ih hcs (c :: acc) rest]
    simp

theorem keysOfLog_linesJoin (ks : List (List Char)) (h : ∀ k ∈ ks, '\n' ∉ k) :
    keysOfLog (linesJoin ks) = ks := by
  induction ks with
  | nil => rfl
  | cons k ks ih =>
    have hk : '\n' ∉ k := h k (List.mem_cons_self k ks)
    have hks : ∀ x ∈ ks, '\n' ∉ x := fun x hx => h x (List.mem_cons_of_mem k hx)
    unfold keysOfLog pyLines linesJoin at *
    simp only [List.map_cons, List.flatten_cons, List.append_assoc, List.singleton_append]
    rw [pyLinesAux_line k hk [] _]
    simp only [List.map_cons, List.reverse_nil, List.nil_append]
    rw [List.dropLast_concat]
    exact congrArg (k :: ·) (ih hks)

theorem recordAll_current (y m d : Nat) (ks : List (List Char)) :
    ∀ s : MemState, (recordAll y m d s ks).current = s.current ++ linesJoin ks := by
  induction ks with
  | nil =>
    intro s
    simp [recordAll, linesJoin]
  | cons k ks ih =>
    intro s
    show (recordAll y m d (log_name s y m d k) ks).current = _
    rw [ih (log_name s y m d k)]
    simp [log_name, linesJoin]

/-- C7: a `Memory` handle truncates `log.current` at construction, and from
then on the current-run log holds exactly the keys recorded through the
handle, one terminated line each, so reading it back the way
`clear_previous_runs` does returns exactly those keys, with nothing carried
over from an earlier handle on the same root. -/
theorem current_log_reflects_handle (root : PathKind) (pre st : MemState)
    (hinit : memoryInit root pre = .ok st)
    (y m d : Nat) (ks : List (List Char)) (hk : ∀ k ∈ ks, '\n' ∉ k) :
    st.current = []
    ∧ (recordAll y m d st ks).current = linesJoin ks
    ∧ keysOfLog ((recordAll y m d st ks).current) = ks := by
  have hcur : st.current = [] := by
    cases root with
    | absent => cases hinit; rfl
    | dirP => cases hinit; rfl
    | fileP => cases hinit
  have hrec : (recordAll y m d st ks).current = linesJoin ks := by
    rw [recordAll_current, hcur]; rfl
  exact ⟨hcur, hrec, by rw [hrec]; exact keysOfLog_linesJoin ks hk⟩

theorem current_log_reflects_handle_witness :
    ({ emptyMem with current := "stale\n".toList } : MemState).current ≠ [] ∧
    ∃ st, memoryInit .dirP { emptyMem with current := "stale\n".toList } = .ok st ∧
      st.current = []
      ∧ (recordAll 2011 4 5 st [['a'], ['b', 'c']]).current = linesJoin [['a'], ['b', 'c']]
      ∧ keysOfLog ((recordAll 2011 4 5 st [['a'], ['b', 'c']]).current) = [['a'], ['b', 'c']] := by
  refine ⟨by decide, { emptyMem with current := [] }, rfl, ?_⟩
  exact current_log_reflects_handle .dirP { emptyMem with current := "stale\n".toList }
    { emptyMem with current := [] } rfl 2011 4 5 [['a'], ['b', 'c']] (by decide)

/-! ## Day-log appends and the cached call -/

theorem find?_map_pres {α : Type} (p : α → Bool) (f : α → α)
    (hf : ∀ x, p (f x) = p x) :
    ∀ l : List α, (l.map f).find? p = (l.find? p).map f := by
  intro l
  induction l with
  | nil => rfl
  | cons a l ih =>
    by_cases ha : p a = true
    · rw [List.map_cons, List.find?_cons_of_pos _ ((hf a).trans ha),
        List.find?_cons_of_pos _ ha, Option.map_some']
    · rw [List.map_cons, List.find?_cons_of_neg _ (by rw [hf a]; exact ha),
        List.find?_cons_of_neg _ ha, ih]

theorem mem_insertNew {α : Type} [DecidableEq α] (x : α) (xs : List α) :
    x ∈ insertNew x xs := by
  unfold insertNew
  split
  · assumption
  · exact List.mem_append_right xs (List.mem_singleton.mpr rfl)

theorem dayLogContent_log_name (s : MemState) (y m d : Nat) (k : List Char) :
    dayLogContent (log_name s y m d k) y m d =
      dayLogContent s y m d ++ k ++ ['\n'] := by
  unfold dayLogContent log_name appendDay
  simp only []
  set p : DayLog → Bool := fun l => l.year == y && l.month == m && l.day == d with hp
  by_cases hany : s.dayLogs.any p = true
  · rw [if_pos hany]
    have hpres : ∀ l : DayLog,
        p (if l.year == y && l.month == m && l.day == d then
             { l with content := l.content ++ (k ++ ['\n']) }
           else l) = p l := by
      intro l
      by_cases hl : (l.year == y && l.month == m && l.day == d) = true
      · rw [if_pos hl]
      · rw [if_neg hl]
    rw [find?_map_pres p _ hpres]
    obtain ⟨l0, hl0⟩ := Option.isSome_iff_exists.mp
      (by rw [List.find?_isSome]; simpa [List.any_eq_true] using hany)
    rw [hl0]
    have hl0p : p l0 = true := List.find?_some hl0
    have h3 : (l0.year = y ∧ l0.month = m) ∧ l0.day = d := by
      rw [hp] at hl0p
      simpa using hl0p
    simp [h3.1.1, h3.1.2, h3.2, List.append_assoc]
  · rw [if_neg hany]
    have hnone : s.dayLogs.find? p = none := by
      rw [List.find?_eq_none]
      intro x hx
      intro hpx
      exact hany (List.any_eq_true.mpr ⟨x, hx, hpx⟩)
    rw [List.find?_append, hnone]
    have hnew : p ⟨y, m, d, k ++ ['\n']⟩ = true := by simp [hp]
    rw [List.find?_cons_of_pos _ hnew]
    simp

theorem current_log_name (s : MemState) (y m d : Nat) (k : List Char) :
    (log_name s y m d k).current = s.current ++ k ++ ['\n'] := rfl

/-- C8: a successful cached call reports the resolved cache key: the key plus
a newline is appended both to `log.current` and to the day log of the current
date, with the year and month log directories created on demand; when the
wrapped execution raises, the error propagates and no usage record is
written. -/
theorem cached_call_reports_usage {α : Type} (disk : Disk)
    (input_spec : List (String × Trait)) (func_name module cls : String)
    (kwargs : List (String × Value)) (run : Except String α) (y m d : Nat)
    (s : MemState) (fp : List (String × HashVal))
    (hfp : hash_inputs disk kwargs input_spec func_name = .ok fp) :
    (∀ out, run = .ok out →
      pyCall disk input_spec func_name module cls kwargs run y m d s =
        (.ok out, log_name s y m d (cacheEntryName module cls fp).toList)
      ∧ (log_name s y m d (cacheEntryName module cls fp).toList).current =
          s.current ++ (cacheEntryName module cls fp).toList ++ ['\n']
      ∧ dayLogContent (log_name s y m d (cacheEntryName module cls fp).toList) y m d =
          dayLogContent s y m d ++ (cacheEntryName module cls fp).toList ++ ['\n']
      ∧ y ∈ (log_name s y m d (cacheEntryName module cls fp).toList).yearDirs
      ∧ (y, m) ∈ (log_name s y m d (cacheEntryName module cls fp).toList).monthDirs)
    ∧ (∀ e, run = .error e →
      pyCall disk input_spec func_name module cls kwargs run y m d s = (.error e, s)) := by
  constructor
  · intro out hrun
    subst hrun
    refine ⟨?_, current_log_name s y m d _, dayLogContent_log_name s y m d _, ?_, ?_⟩
    · unfold pyCall
      rw [hfp]
    · exact mem_insertNew y s.yearDirs
    · exact mem_insertNew (y, m) s.monthDirs
  · intro e hrun
    subst hrun
    unfold pyCall
    rw [hfp]

theorem cached_call_reports_usage_witness :
    pyCall (fun _ => ⟨0, []⟩) [("a", Trait.scalar)] "f" "m" "C" [("a", Value.intV 1)]
        (Except.ok 0) 2011 4 5 emptyMem =
      (.ok 0, log_name emptyMem 2011 4 5
        (cacheEntryName "m" "C" [("a", HashVal.val (Value.intV 1))]).toList)
    ∧ pyCall (fun _ => ⟨0, []⟩) [("a", Trait.scalar)] "f" "m" "C" [("a", Value.intV 1)]
        (Except.error "boom" : Except String Nat) 2011 4 5 emptyMem =
      (.error "boom", emptyMem) := by
  refine ⟨?_, ?_⟩
  · exact ((cached_call_reports_usage (fun _ => ⟨0, []⟩) [("a", Trait.scalar)] "f" "m" "C"
      [("a", Value.intV 1)] (Except.ok 0) 2011 4 5 emptyMem
      [("a", HashVal.val (Value.intV 1))] rfl).1 0 rfl).1
  · exact (cached_call_reports_usage (fun _ => ⟨0, []⟩) [("a", Trait.scalar)] "f" "m" "C"
      [("a", Value.intV 1)] (Except.error "boom") 2011 4 5 emptyMem
      [("a", HashVal.val (Value.intV 1))] rfl).2 "boom" rfl

/-! ## Fingerprinting: validation, determinism, order independence -/

theorem pyHashList_isSome_of (disk : Disk) (t : Trait)
    (ih : ∀ v, conforms t v = true → (pyHash disk t v).isSome = true) :
    ∀ vs, conformsList t vs = true → (pyHashList disk t vs).isSome = true := by
  intro vs h
  induction vs with
  | nil => rfl
  | cons v vs ihl =>
    rw [conformsList, Bool.and_eq_true] at h
    obtain ⟨h1, hs1⟩ := Option.isSome_iff_exists.mp (ih v h.1)
    obtain ⟨h2, hs2⟩ := Option.isSome_iff_exists.mp (ihl h.2)
    rw [pyHashList, hs1, hs2]
    rfl

theorem pyHash_isSome (disk : Disk) :
    ∀ (t : Trait) (v : Value), conforms t v = true → (pyHash disk t v).isSome = true := by
  intro t
  induction t with
  | file ex =>
    intro v hc
    cases ex with
    | false => cases v <;> rfl
    | true =>
      cases v with
      | str s => rfl
      | intV i => exact Bool.noConfusion hc
      | listV vs => exact Bool.noConfusion hc
  | listTrait t ih =>
    intro v hc
    cases v with
    | str s => exact Bool.noConfusion hc
    | intV i => exact Bool.noConfusion hc
    | listV vs =>
      have hc2 : conformsList t vs = true := hc
      obtain ⟨hs, hhs⟩ := Option.isSome_iff_exists.mp (pyHashList_isSome_of disk t ih vs hc2)
      rw [pyHash, hhs]
      rfl
  | scalar => intro v _; cases v <;> rfl

theorem mapM_ok_of_forall {α β : Type} (f : α → Except String β) (g : α → β) :
    ∀ l : List α, (∀ x ∈ l, f x = .ok (g x)) → l.mapM f = .ok (l.map g) := by
  intro l h
  induction l with
  | nil => rfl
  | cons a l ih =>
    rw [List.mapM_cons, h a (List.mem_cons_self a l),
      ih fun x hx => h x (List.mem_cons_of_mem a hx)]
    rfl

theorem hash_step_ok (disk : Disk) (input_spec : List (String × Trait))
    (func_name : String) (nv : String × Value)
    (hv : (input_spec.lookup nv.1).isSome = true)
    (hc : confLookup input_spec nv = true) :
    (match input_spec.lookup nv.1 with
     | none => Except.error (invalidParamMsg nv.1 func_name)
     | some t =>
       match pyHash disk t nv.2 with
       | none => Except.error "TypeError"
       | some h => Except.ok (nv.1, h)) = .ok (fingerOf disk input_spec nv) := by
  obtain ⟨t, ht⟩ := Option.isSome_iff_exists.mp hv
  have hc2 : conforms t nv.2 = true := by
    rw [confLookup, ht] at hc
    exact hc
  obtain ⟨h, hh⟩ := Option.isSome_iff_exists.mp (pyHash_isSome disk t nv.2 hc2)
  simp only [fingerOf]
  rw [ht]
  change (match pyHash disk t nv.2 with
    | none => Except.error "TypeError"
    | some h => Except.ok (nv.1, h)) =
      Except.ok (nv.1, (pyHash disk t nv.2).getD (HashVal.val nv.2))
  rw [hh]
  rfl

theorem hash_inputs_ok (disk : Disk) (input_spec : List (String × Trait))
    (func_name : String) (inputs : List (String × Value))
    (hv : ∀ nv ∈ inputs, (input_spec.lookup nv.1).isSome = true)
    (hc : ∀ nv ∈ inputs, confLookup input_spec nv = true) :
    hash_inputs disk inputs input_spec func_name =
      .ok (inputs.map (fingerOf disk input_spec)) := by
  unfold hash_inputs
  exact mapM_ok_of_forall _ _ inputs fun nv hnv =>
    hash_step_ok disk input_spec func_name nv (hv nv hnv) (hc nv hnv)

theorem hash_inputs_first_invalid (disk : Disk) (input_spec : List (String × Trait))
    (func_name : String) (n : String) (v : Value) :
    ∀ (pre rest : List (String × Value)),
      (∀ nv ∈ pre, (input_spec.lookup nv.1).isSome = true) →
      (∀ nv ∈ pre, confLookup input_spec nv = true) →
      input_spec.lookup n = none →
      hash_inputs disk (pre ++ (n, v) :: rest) input_spec func_name =
        .error (invalidParamMsg n func_name) := by
  intro pre
  induction pre with
  | nil =>
    intro rest _ _ hn
    unfold hash_inputs
    rw [List.nil_append, List.mapM_cons]
    show (match input_spec.lookup n with
          | none => Except.error (invalidParamMsg n func_name)
          | some t =>
            match pyHash disk t v with
            | none => Except.error "TypeError"
            | some h => Except.ok (n, h)) >>= _ = _
    rw [hn]
    rfl
  | cons p pre ih =>
    intro rest hv hc hn
    have hstep := hash_step_ok disk input_spec func_name p
      (hv p (List.mem_cons_self p pre)) (hc p (List.mem_cons_self p pre))
    have hih := ih rest (fun nv hnv => hv nv (List.mem_cons_of_mem p hnv))
      (fun nv hnv => hc nv (List.mem_cons_of_mem p hnv)) hn
    unfold hash_inputs at hih ⊢
    rw [List.cons_append, List.mapM_cons, hstep, hih]
    rfl

/-- C3: fingerprinting fails exactly when some input name is missing from the
schema traits: with every name declared (and every value of the shape its
trait demands), `hash_inputs` returns a fingerprint entry for every supplied
input; with an undeclared name in the inputs, it raises the ValueError naming
that parameter, and the cached call returns that error with the root state
untouched, before anything is run or logged. -/
theorem fingerprint_schema_validation (disk : Disk)
    (input_spec : List (String × Trait)) (func_name module cls : String)
    (inputs : List (String × Value))
    (hc : ∀ nv ∈ inputs, confLookup input_spec nv = true) :
    ((∀ nv ∈ inputs, (input_spec.lookup nv.1).isSome = true) →
      hash_inputs disk inputs input_spec func_name =
        .ok (inputs.map (fingerOf disk input_spec))
      ∧ ∀ nv ∈ inputs, ∃ h,
          (nv.1, h) ∈ inputs.map (fingerOf disk input_spec))
    ∧ (∀ (pre rest : List (String × Value)) (n : String) (v : Value),
        inputs = pre ++ (n, v) :: rest →
        (∀ nv ∈ pre, (input_spec.lookup nv.1).isSome = true) →
        input_spec.lookup n = none →
        hash_inputs disk inputs input_spec func_name =
          .error (invalidParamMsg n func_name))
    ∧ (∀ (e : String) (run : Except String Nat) (y m d : Nat) (s : MemState),
        hash_inputs disk inputs input_spec func_name = .error e →
        pyCall disk input_spec func_name module cls inputs run y m d s =
          (.error e, s)) := by
  refine ⟨fun hv => ⟨hash_inputs_ok disk input_spec func_name inputs hv hc, ?_⟩,
    fun pre rest n v heq hv hn => ?_, fun e run y m d s he => ?_⟩
  · intro nv hnv
    exact ⟨(fingerOf disk input_spec nv).2, List.mem_map.mpr ⟨nv, hnv, rfl⟩⟩
  · subst heq
    exact hash_inputs_first_invalid disk input_spec func_name n v pre rest hv
      (fun nv hnv => hc nv (List.mem_append_left _ hnv)) hn
  · unfold pyCall
    rw [he]

theorem fingerprint_schema_validation_witness :
    hash_inputs (fun _ => ⟨0, []⟩) [("a", Value.intV 1)] [("a", Trait.scalar)] "f" =
      .ok [("a", HashVal.val (Value.intV 1))]
    ∧ hash_inputs (fun _ => ⟨0, []⟩) [("a", Value.intV 1), ("oops", Value.intV 2)]
        [("a", Trait.scalar)] "f" = .error (invalidParamMsg "oops" "f")
    ∧ pyCall (fun _ => ⟨0, []⟩) [("a", Trait.scalar)] "f" "m" "C"
        [("a", Value.intV 1), ("oops", Value.intV 2)] (Except.ok 0) 2011 4 5 emptyMem =
        (.error (invalidParamMsg "oops" "f"), emptyMem) := by
  refine ⟨?_, ?_, ?_⟩
  · exact ((fingerprint_schema_validation (fun _ => ⟨0, []⟩) [("a", Trait.scalar)] "f" "m" "C"
      [("a", Value.intV 1)] (by decide)).1 (by decide)).1
  · exact (fingerprint_schema_validation (fun _ => ⟨0, []⟩) [("a", Trait.scalar)] "f" "m" "C"
      [("a", Value.intV 1), ("oops", Value.intV 2)] (by decide)).2.1
      [("a", Value.intV 1)] [] "oops" (Value.intV 2) rfl (by decide) rfl
  · exact (fingerprint_schema_validation (fun _ => ⟨0, []⟩) [("a", Trait.scalar)] "f" "m" "C"
      [("a", Value.intV 1), ("oops", Value.intV 2)] (by decide)).2.2
      (invalidParamMsg "oops" "f") (Except.ok 0) 2011 4 5 emptyMem
      ((fingerprint_schema_validation (fun _ => ⟨0, []⟩) [("a", Trait.scalar)] "f" "m" "C"
        [("a", Value.intV 1), ("oops", Value.intV 2)] (by decide)).2.1
        [("a", Value.intV 1)] [] "oops" (Value.intV 2) rfl (by decide) rfl)

/-- C2: the claim as stated is false of the code.  Both orders of the same
name-value pairs fingerprint to dictionaries with the same entries
(Fingerprint-equivalent InputSets), but `pickle.dumps` serializes the
fingerprint dict in its iteration order, so the md5 digests — and with them
the cache-entry names — differ.  In CPython 2 the iteration order of a kwargs
dict depends on its insertion history whenever two key hashes collide modulo
the table size, so equally-valued input mappings really can reach
`pickle.dumps` in different orders. -/
theorem cache_key_pickle_order_counterexample :
    hash_inputs (fun _ => ⟨0, []⟩) [("a", Value.str "x"), ("b", Value.intV 3)]
        [("a", Trait.scalar), ("b", Trait.scalar)] "f" =
      .ok [("a", HashVal.val (Value.str "x")), ("b", HashVal.val (Value.intV 3))]
    ∧ hash_inputs (fun _ => ⟨0, []⟩) [("b", Value.intV 3), ("a", Value.str "x")]
        [("a", Trait.scalar), ("b", Trait.scalar)] "f" =
      .ok [("b", HashVal.val (Value.intV 3)), ("a", HashVal.val (Value.str "x"))]
    ∧ List.Perm [("a", HashVal.val (Value.str "x")), ("b", HashVal.val (Value.intV 3))]
        [("b", HashVal.val (Value.intV 3)), ("a", HashVal.val (Value.str "x"))]
    ∧ cacheEntryName "m" "C"
        [("a", HashVal.val (Value.str "x")), ("b", HashVal.val (Value.intV 3))] ≠
      cacheEntryName "m" "C"
        [("b", HashVal.val (Value.intV 3)), ("a", HashVal.val (Value.str "x"))] :=
  ⟨rfl, rfl, List.Perm.swap ("b", HashVal.val (Value.intV 3))
    ("a", HashVal.val (Value.str "x")) [], by decide⟩

/-- C2 (amended): `hash_inputs` itself is order independent — two input
mappings with the same name-value pairs fingerprint, in any iteration order,
to dictionaries with exactly the same name-to-fingerprint entries — and the
cache-entry name is a function of the fingerprint dictionary in its iteration
order, so the identical entry name is guaranteed when the two dictionaries
reach `pickle.dumps` in the same order; it is not guaranteed for
Fingerprint-equivalent InputSets whose dicts iterate differently (see the
counterexample). -/
theorem cache_key_order_independent_as_map (disk : Disk)
    (input_spec : List (String × Trait)) (func_name module cls : String)
    (inputs1 inputs2 : List (String × Value)) (hperm : inputs1.Perm inputs2)
    (hv : ∀ nv ∈ inputs1, (input_spec.lookup nv.1).isSome = true)
    (hc : ∀ nv ∈ inputs1, confLookup input_spec nv = true) :
    ∃ out1 out2,
      hash_inputs disk inputs1 input_spec func_name = .ok out1
      ∧ hash_inputs disk inputs2 input_spec func_name = .ok out2
      ∧ out1.Perm out2
      ∧ (out1 = out2 →
          cacheEntryName module cls out1 = cacheEntryName module cls out2) := by
  have hv2 : ∀ nv ∈ inputs2, (input_spec.lookup nv.1).isSome = true :=
    fun nv hnv => hv nv (hperm.mem_iff.mpr hnv)
  have hc2 : ∀ nv ∈ inputs2, confLookup input_spec nv = true :=
    fun nv hnv => hc nv (hperm.mem_iff.mpr hnv)
  exact ⟨inputs1.map (fingerOf disk input_spec), inputs2.map (fingerOf disk input_spec),
    hash_inputs_ok disk input_spec func_name inputs1 hv hc,
    hash_inputs_ok disk input_spec func_name inputs2 hv2 hc2,
    hperm.map (fingerOf disk input_spec),
    fun h => by rw [h]⟩

theorem cache_key_order_independent_as_map_witness :
    ∃ out1 out2,
      hash_inputs (fun _ => ⟨0, []⟩) [("a", Value.str "x"), ("b", Value.intV 3)]
          [("a", Trait.scalar), ("b", Trait.scalar)] "f" = .ok out1
      ∧ hash_inputs (fun _ => ⟨0, []⟩) [("b", Value.intV 3), ("a", Value.str "x")]
          [("a", Trait.scalar), ("b", Trait.scalar)] "f" = .ok out2
      ∧ out1.Perm out2
      ∧ (out1 = out2 →
          cacheEntryName "nipype.interfaces.fsl" "Merge" out1 =
            cacheEntryName "nipype.interfaces.fsl" "Merge" out2) :=
  cache_key_order_independent_as_map (fun _ => ⟨0, []⟩)
    [("a", Trait.scalar), ("b", Trait.scalar)] "f" "nipype.interfaces.fsl" "Merge"
    [("a", Value.str "x"), ("b", Value.intV 3)] [("b", Value.intV 3), ("a", Value.str "x")]
    (List.Perm.swap ("b", Value.intV 3) ("a", Value.str "x") [])
    (by decide) (by decide)

/-! ## Path-reference fingerprints depend on the mtime only -/

theorem pyHashList_mtime_congr (d1 d2 : Disk) (t : Trait)
    (ih : ∀ v, pyHash d1 t v = pyHash d2 t v) :
    ∀ vs, pyHashList d1 t vs = pyHashList d2 t vs := by
  intro vs
  induction vs with
  | nil => rfl
  | cons v vs ihl => rw [pyHashList, pyHashList, ih v, ihl]

theorem pyHash_mtime_congr (d1 d2 : Disk)
    (hsame : ∀ q, (d1 q).mtime = (d2 q).mtime) :
    ∀ (t : Trait) (v : Value), pyHash d1 t v = pyHash d2 t v := by
  intro t
  induction t with
  | file ex =>
    intro v
    cases ex with
    | false => cases v <;> rfl
    | true =>
      cases v with
      | str s => simp only [pyHash, hash_file, if_pos, hsame s]
      | intV i => rfl
      | listV vs => rfl
  | listTrait t ih =>
    intro v
    cases v with
    | str s => rfl
    | intV i => rfl
    | listV vs => rw [pyHash, pyHash, pyHashList_mtime_congr d1 d2 t ih vs]
  | scalar => intro v; cases v <;> rfl

/-- C4: a path-reference value fingerprints to the reference itself when the
trait is not existence sensitive, and to the `(path, mtime)` pair read at
fingerprint time when it is; file content is never read, so fingerprints
agree across disks with equal mtimes whatever the contents, while a bare
mtime change flips the existence-sensitive fingerprint. -/
theorem path_reference_mtime_only (d1 d2 : Disk) (p : String) (t : Trait)
    (v : Value) (hsame : ∀ q, (d1 q).mtime = (d2 q).mtime) :
    hash_file d1 v false = some (.val v)
    ∧ hash_file d1 (.str p) true = some (.pathMtime p (d1 p).mtime)
    ∧ pyHash d1 t v = pyHash d2 t v
    ∧ (∀ d3 d4 : Disk, (d3 p).mtime ≠ (d4 p).mtime →
        hash_file d3 (.str p) true ≠ hash_file d4 (.str p) true) := by
  refine ⟨rfl, rfl, pyHash_mtime_congr d1 d2 hsame t v, fun d3 d4 hne he => ?_⟩
  simp only [hash_file, if_pos, Option.some.injEq] at he
  exact hne (HashVal.pathMtime.inj he).2

theorem path_reference_mtime_only_witness :
    hash_file (fun _ => ⟨5, ['a']⟩) (Value.str "p") false = some (.val (Value.str "p"))
    ∧ hash_file (fun _ => ⟨5, ['a']⟩) (Value.str "p") true = some (.pathMtime "p" 5)
    ∧ pyHash (fun _ => ⟨5, ['a']⟩) (Trait.file true) (Value.str "p") =
        pyHash (fun _ => ⟨5, ['b']⟩) (Trait.file true) (Value.str "p")
    ∧ hash_file (fun _ => ⟨1, []⟩) (Value.str "p") true ≠
        hash_file (fun _ => ⟨2, []⟩) (Value.str "p") true := by
  have h := path_reference_mtime_only (fun _ => ⟨5, ['a']⟩) (fun _ => ⟨5, ['b']⟩) "p"
    (Trait.file true) (Value.str "p") (fun _ => rfl)
  exact ⟨h.1, h.2.1, h.2.2.1, h.2.2.2 (fun _ => ⟨1, []⟩) (fun _ => ⟨2, []⟩) (by decide)⟩

/-! ## Sequence fingerprints preserve order -/

theorem pyHashList_inj (disk : Disk) (t : Trait)
    (ih : ∀ v1 v2, conforms t v1 = true → conforms t v2 = true →
      pyHash disk t v1 = pyHash disk t v2 → v1 = v2) :
    ∀ vs1 vs2, conformsList t vs1 = true → conformsList t vs2 = true →
      pyHashList disk t vs1 = pyHashList disk t vs2 → vs1 = vs2 := by
  intro vs1
  induction vs1 with
  | nil =>
    intro vs2 _ hc2 he
    cases vs2 with
    | nil => rfl
    | cons w ws =>
      rw [conformsList, Bool.and_eq_true] at hc2
      obtain ⟨h, hh⟩ := Option.isSome_iff_exists.mp (pyHash_isSome disk t w hc2.1)
      obtain ⟨hs, hhs⟩ := Option.isSome_iff_exists.mp
        (pyHashList_isSome_of disk t (fun v hv => pyHash_isSome disk t v hv) ws hc2.2)
      rw [pyHashList, pyHashList, hh, hhs] at he
      cases he
  | cons v vs ihl =>
    intro vs2 hc1 hc2 he
    rw [conformsList, Bool.and_eq_true] at hc1
    obtain ⟨h1, hh1⟩ := Option.isSome_iff_exists.mp (pyHash_isSome disk t v hc1.1)
    obtain ⟨hs1, hhs1⟩ := Option.isSome_iff_exists.mp
      (pyHashList_isSome_of disk t (fun x hx => pyHash_isSome disk t x hx) vs hc1.2)
    cases vs2 with
    | nil =>
      rw [pyHashList, pyHashList, hh1, hhs1] at he
      cases he
    | cons w ws =>
      rw [conformsList, Bool.and_eq_true] at hc2
      obtain ⟨h2, hh2⟩ := Option.isSome_iff_exists.mp (pyHash_isSome disk t w hc2.1)
      obtain ⟨hs2, hhs2⟩ := Option.isSome_iff_exists.mp
        (pyHashList_isSome_of disk t (fun x hx => pyHash_isSome disk t x hx) ws hc2.2)
      rw [pyHashList, pyHashList, hh1, hhs1, hh2, hhs2] at he
      simp only [Option.some.injEq, List.cons.injEq] at he
      exact List.cons_eq_cons.mpr ⟨ih v w hc1.1 hc2.1 (by rw [hh1, hh2, he.1]),
        ihl ws hc1.2 hc2.2 (by rw [hhs1, hhs2, he.2])⟩

theorem pyHash_inj (disk : Disk) :
    ∀ (t : Trait) (v1 v2 : Value), conforms t v1 = true → conforms t v2 = true →
      pyHash disk t v1 = pyHash disk t v2 → v1 = v2 := by
  intro t
  induction t with
  | file ex =>
    intro v1 v2 hc1 hc2 he
    cases ex with
    | false =>
      cases v1 <;> cases v2 <;>
        simp only [pyHash, hash_file, Bool.false_eq_true, if_neg,
          Option.some.injEq, HashVal.val.injEq] at he <;>
        first
        | exact he
        | (cases he <;> rfl)
    | true =>
      cases v1 with
      | str s1 =>
        cases v2 with
        | str s2 =>
          simp only [pyHash, hash_file, if_pos, Option.some.injEq] at he
          rw [(HashVal.pathMtime.inj he).1]
        | intV i => exact Bool.noConfusion hc2
        | listV vs => exact Bool.noConfusion hc2
      | intV i => exact Bool.noConfusion hc1
      | listV vs => exact Bool.noConfusion hc1
  | listTrait t ih =>
    intro v1 v2 hc1 hc2 he
    cases v1 with
    | str s => exact Bool.noConfusion hc1
    | intV i => exact Bool.noConfusion hc1
    | listV vs1 =>
      cases v2 with
      | str s => exact Bool.noConfusion hc2
      | intV i => exact Bool.noConfusion hc2
      | listV vs2 =>
        have hc1 : conformsList t vs1 = true := hc1
        have hc2 : conformsList t vs2 = true := hc2
        obtain ⟨hs1, hhs1⟩ := Option.isSome_iff_exists.mp
          (pyHashList_isSome_of disk t (fun x hx => pyHash_isSome disk t x hx) vs1 hc1)
        obtain ⟨hs2, hhs2⟩ := Option.isSome_iff_exists.mp
          (pyHashList_isSome_of disk t (fun x hx => pyHash_isSome disk t x hx) vs2 hc2)
        rw [pyHash, pyHash, hhs1, hhs2] at he
        simp only [Option.map_some', Option.some.injEq, HashVal.listH.injEq] at he
        rw [pyHashList_inj disk t ih vs1 vs2 hc1 hc2 (by rw [hhs1, hhs2, he])]
  | scalar =>
    intro v1 v2 _ _ he
    cases v1 <;> cases v2 <;>
      simp only [pyHash, Option.some.injEq, HashVal.val.injEq] at he <;>
      exact he

/-- C5: the fingerprint of a sequence-of input is the ordered list of its
elements' fingerprints, computed recursively with the inner trait; the order
is preserved, so swapping two distinct elements changes the fingerprint. -/
theorem sequence_fingerprint_ordered (disk : Disk) (t : Trait) (v1 v2 : Value)
    (hc1 : conforms t v1 = true) (hc2 : conforms t v2 = true) (hne : v1 ≠ v2) :
    (∃ h1 h2,
      pyHash disk t v1 = some h1 ∧ pyHash disk t v2 = some h2
      ∧ pyHash disk (.listTrait t) (.listV [v1, v2]) = some (.listH [h1, h2])
      ∧ pyHash disk (.listTrait t) (.listV [v2, v1]) = some (.listH [h2, h1]))
    ∧ pyHash disk (.listTrait t) (.listV [v1, v2]) ≠
        pyHash disk (.listTrait t) (.listV [v2, v1]) := by
  obtain ⟨h1, hh1⟩ := Option.isSome_iff_exists.mp (pyHash_isSome disk t v1 hc1)
  obtain ⟨h2, hh2⟩ := Option.isSome_iff_exists.mp (pyHash_isSome disk t v2 hc2)
  have e12 : pyHash disk (.listTrait t) (.listV [v1, v2]) = some (.listH [h1, h2]) := by
    rw [pyHash, pyHashList, pyHashList, pyHashList, hh1, hh2]
    rfl
  have e21 : pyHash disk (.listTrait t) (.listV [v2, v1]) = some (.listH [h2, h1]) := by
    rw [pyHash, pyHashList, pyHashList, pyHashList, hh1, hh2]
    rfl
  refine ⟨⟨h1, h2, hh1, hh2, e12, e21⟩, fun he => ?_⟩
  rw [e12, e21] at he
  simp only [Option.some.injEq, HashVal.listH.injEq, List.cons.injEq] at he
  exact hne (pyHash_inj disk t v1 v2 hc1 hc2 (by rw [hh1, hh2, he.1]))

theorem sequence_fingerprint_ordered_witness :
    (∃ h1 h2,
      pyHash (fun _ => ⟨0, []⟩) Trait.scalar (Value.intV 1) = some h1
      ∧ pyHash (fun _ => ⟨0, []⟩) Trait.scalar (Value.intV 2) = some h2
      ∧ pyHash (fun _ => ⟨0, []⟩) (.listTrait .scalar)
          (.listV [Value.intV 1, Value.intV 2]) = some (.listH [h1, h2])
      ∧ pyHash (fun _ => ⟨0, []⟩) (.listTrait .scalar)
          (.listV [Value.intV 2, Value.intV 1]) = some (.listH [h2, h1]))
    ∧ pyHash (fun _ => ⟨0, []⟩) (.listTrait .scalar)
        (.listV [Value.intV 1, Value.intV 2]) ≠
      pyHash (fun _ => ⟨0, []⟩) (.listTrait .scalar)
        (.listV [Value.intV 2, Value.intV 1]) :=
  sequence_fingerprint_ordered (fun _ => ⟨0, []⟩) Trait.scalar
    (Value.intV 1) (Value.intV 2) rfl rfl (by decide)

/-! ## The Python string order on day-log paths agrees with date order -/

theorem strLt_irrefl (l : List Nat) : strLt l l = false := by
  induction l with
  | nil => rfl
  | cons a as ih =>
    show strLt (a :: as) (a :: as) = false
    simp only [strLt, lt_self_iff_false, if_false]
    exact ih

theorem strLt_append_same (p : List Nat) : ∀ a b, strLt (p ++ a) (p ++ b) = strLt a b := by
  induction p with
  | nil => intro a b; rfl
  | cons c p ih =>
    intro a b
    show strLt (c :: (p ++ a)) (c :: (p ++ b)) = _
    simp only [strLt, lt_self_iff_false, if_false]
    exact ih a b

theorem strLt_block : ∀ (a b r1 r2 : List Nat), a.length = b.length →
    strLt (a ++ r1) (b ++ r2) = if a = b then strLt r1 r2 else strLt a b := by
  intro a
  induction a with
  | nil =>
    intro b r1 r2 hl
    cases b with
    | nil => simp
    | cons y ys => simp at hl
  | cons x xs ih =>
    intro b r1 r2 hl
    cases b with
    | nil => simp at hl
    | cons y ys =>
      have hl2 : xs.length = ys.length := by simpa using hl
      show strLt (x :: (xs ++ r1)) (y :: (ys ++ r2)) = _
      by_cases h1 : x < y
      · have hne : ¬(x :: xs = y :: ys) := by
          intro hcc
          rw [List.cons.injEq] at hcc
          exact lt_irrefl y (hcc.1 ▸ h1)
        simp [strLt, h1, hne]
      · by_cases h2 : y < x
        · have hne : ¬(x :: xs = y :: ys) := by
            intro hcc
            rw [List.cons.injEq] at hcc
            exact lt_irrefl y (hcc.1 ▸ h2)
          simp [strLt, h1, h2, hne]
        · have hxy : x = y := le_antisymm (Nat.not_lt.mp h2) (Nat.not_lt.mp h1)
          subst hxy
          simp only [strLt, lt_self_iff_false, if_false, List.cons.injEq, true_and]
          rw [ih ys r1 r2 hl2]

theorem strLt_padDigits : ∀ (k a b : Nat),
    strLt (padDigits k a) (padDigits k b) = decide (a % 10 ^ k < b % 10 ^ k) := by
  intro k
  induction k with
  | zero =>
    intro a b
    show false = decide (a % 1 < b % 1)
    rw [Nat.mod_one, Nat.mod_one]
    rfl
  | succ k ih =>
    intro a b
    have hra : a % 10 ^ k < 10 ^ k := Nat.mod_lt _ (Nat.pos_pow_of_pos k (by omega))
    have hrb : b % 10 ^ k < 10 ^ k := Nat.mod_lt _ (Nat.pos_pow_of_pos k (by omega))
    have hmoda : a % 10 ^ (k + 1) = 10 ^ k * (a / 10 ^ k % 10) + a % 10 ^ k := by
      rw [pow_succ, Nat.mod_mul]
      ring
    have hmodb : b % 10 ^ (k + 1) = 10 ^ k * (b / 10 ^ k % 10) + b % 10 ^ k := by
      rw [pow_succ, Nat.mod_mul]
      ring
    show strLt ((48 + a / 10 ^ k % 10) :: padDigits k a)
        ((48 + b / 10 ^ k % 10) :: padDigits k b) = _
    by_cases h1 : 48 + a / 10 ^ k % 10 < 48 + b / 10 ^ k % 10
    · have hlt : a % 10 ^ (k + 1) < b % 10 ^ (k + 1) := by
        rw [hmoda, hmodb]
        calc 10 ^ k * (a / 10 ^ k % 10) + a % 10 ^ k
            < 10 ^ k * (a / 10 ^ k % 10) + 10 ^ k := by omega
          _ = 10 ^ k * (a / 10 ^ k % 10 + 1) := by ring
          _ ≤ 10 ^ k * (b / 10 ^ k % 10) := Nat.mul_le_mul_left _ (by omega)
          _ ≤ 10 ^ k * (b / 10 ^ k % 10) + b % 10 ^ k := by omega
      simp [strLt, h1, hlt]
    · by_cases h2 : 48 + b / 10 ^ k % 10 < 48 + a / 10 ^ k % 10
      · have hge : b % 10 ^ (k + 1) < a % 10 ^ (k + 1) := by
          rw [hmoda, hmodb]
          calc 10 ^ k * (b / 10 ^ k % 10) + b % 10 ^ k
              < 10 ^ k * (b / 10 ^ k % 10) + 10 ^ k := by omega
            _ = 10 ^ k * (b / 10 ^ k % 10 + 1) := by ring
            _ ≤ 10 ^ k * (a / 10 ^ k % 10) := Nat.mul_le_mul_left _ (by omega)
            _ ≤ 10 ^ k * (a / 10 ^ k % 10) + a % 10 ^ k := by omega
        have hnlt : ¬(a % 10 ^ (k + 1) < b % 10 ^ (k + 1)) := by omega
        simp [strLt, h1, h2, hnlt]
      · have hd : a / 10 ^ k % 10 = b / 10 ^ k % 10 := by omega
        have hiff : (a % 10 ^ (k + 1) < b % 10 ^ (k + 1)) ↔ (a % 10 ^ k < b % 10 ^ k) := by
          rw [hmoda, hmodb, hd]
          omega
        simp only [strLt, h1, h2, if_false]
        rw [ih a b, decide_eq_decide]
        exact hiff.symm

theorem padDigits_inj (k a b : Nat) (ha : a < 10 ^ k) (hb : b < 10 ^ k)
    (h : padDigits k a = padDigits k b) : a = b := by
  have h1 := strLt_padDigits k a b
  have h2 := strLt_padDigits k b a
  rw [h, strLt_irrefl] at h1
  rw [← h, strLt_irrefl] at h2
  rw [Nat.mod_eq_of_lt ha, Nat.mod_eq_of_lt hb] at h1 h2
  have h1b : ¬(a < b) := of_decide_eq_false h1.symm
  have h2b : ¬(b < a) := of_decide_eq_false h2.symm
  omega

theorem padDigits_length : ∀ k n, (padDigits k n).length = k := by
  intro k
  induction k with
  | zero => intro n; rfl
  | succ k ih =>
    intro n
    show ((48 + n / 10 ^ k % 10) :: padDigits k n).length = k + 1
    rw [List.length_cons, ih n]

theorem padDigits_append_last : ∀ (k n : Nat),
    padDigits (k + 1) n = padDigits k (n / 10) ++ [48 + n % 10] := by
  intro k
  induction k with
  | zero =>
    intro n
    show (48 + n / 10 ^ 0 % 10) :: padDigits 0 n = [] ++ [48 + n % 10]
    rw [pow_zero, Nat.div_one]
    rfl
  | succ k ih =>
    intro n
    show (48 + n / 10 ^ (k + 1) % 10) :: padDigits (k + 1) n = _
    rw [ih n]
    show _ = ((48 + (n / 10) / 10 ^ k % 10) :: padDigits k (n / 10)) ++ [48 + n % 10]
    rw [List.cons_append]
    have hdiv : n / 10 ^ (k + 1) = (n / 10) / 10 ^ k := by
      rw [Nat.div_div_eq_div_mul, pow_succ, mul_comm (10 ^ k) 10]
    rw [hdiv]

theorem digitsOf_eq_padDigits : ∀ (k n : Nat), 10 ^ k ≤ n → n < 10 ^ (k + 1) →
    digitsOf n = padDigits (k + 1) n := by
  intro k
  induction k with
  | zero =>
    intro n h1 h2
    have h2b : n < 10 := by simpa using h2
    rw [digitsOf, dif_pos h2b]
    show _ = [48 + n / 10 ^ 0 % 10]
    rw [pow_zero, Nat.div_one, Nat.mod_eq_of_lt h2b]
  | succ k ih =>
    intro n h1 h2
    have h10 : ¬(n < 10) := by
      have hle : (10 : Nat) ^ 1 ≤ 10 ^ (k + 1) := Nat.pow_le_pow_right (by omega) (by omega)
      rw [pow_one] at hle
      omega
    have hdiv1 : 10 ^ k ≤ n / 10 := by
      rw [Nat.le_div_iff_mul_le (by omega)]
      calc 10 ^ k * 10 = 10 ^ (k + 1) := (pow_succ 10 k).symm
        _ ≤ n := h1
    have hdiv2 : n / 10 < 10 ^ (k + 1) := by
      rw [Nat.div_lt_iff_lt_mul (by omega)]
      calc n < 10 ^ (k + 2) := h2
        _ = 10 ^ (k + 1) * 10 := pow_succ 10 (k + 1)
    rw [digitsOf, dif_neg h10, ih (n / 10) hdiv1 hdiv2, ← padDigits_append_last]

/-- The date-vs-string-order bridge: for the day-log paths `_log_name` writes
and `clear_runs_since` compares, the Python string order is exactly
date-before, as long as years render with four digits and months and days
with two. -/
theorem strLt_dayLogPath (base : List Nat) (y1 m1 d1 y2 m2 d2 : Nat)
    (hy1 : 1000 ≤ y1) (hy1b : y1 < 10000) (hy2 : 1000 ≤ y2) (hy2b : y2 < 10000)
    (hm1 : m1 < 100) (hd1 : d1 < 100) (hm2 : m2 < 100) (hd2 : d2 < 100) :
    strLt (dayLogPath base y1 m1 d1) (dayLogPath base y2 m2 d2) =
      decide (dateBefore y1 m1 d1 y2 m2 d2) := by
  have e3 : (10 : Nat) ^ 3 = 1000 := by norm_num
  have e4 : (10 : Nat) ^ 4 = 10000 := by norm_num
  have e2 : (10 : Nat) ^ 2 = 100 := by norm_num
  have hdy1 : digitsOf y1 = padDigits 4 y1 :=
    digitsOf_eq_padDigits 3 y1 (by omega) (by rw [e4]; omega)
  have hdy2 : digitsOf y2 = padDigits 4 y2 :=
    digitsOf_eq_padDigits 3 y2 (by omega) (by rw [e4]; omega)
  unfold dayLogPath
  rw [hdy1, hdy2]
  simp only [List.append_assoc]
  rw [strLt_append_same, strLt_append_same,
    strLt_block _ _ _ _ (by rw [padDigits_length, padDigits_length])]
  by_cases hyy : y1 = y2
  · subst hyy
    rw [if_pos rfl, strLt_append_same,
      strLt_block _ _ _ _ (by rw [padDigits_length, padDigits_length])]
    by_cases hmm : m1 = m2
    · subst hmm
      rw [if_pos rfl, strLt_append_same,
        strLt_block _ _ _ _ (by rw [padDigits_length, padDigits_length])]
      by_cases hdd : d1 = d2
      · subst hdd
        rw [if_pos rfl, strLt_irrefl]
        have hnb : ¬dateBefore y1 m1 d1 y1 m1 d1 := by unfold dateBefore; omega
        simp [hnb]
      · have hpne : ¬(padDigits 2 d1 = padDigits 2 d2) := fun hcc =>
          hdd (padDigits_inj 2 d1 d2 (by omega) (by omega) hcc)
        rw [if_neg hpne, strLt_padDigits, e2, Nat.mod_eq_of_lt hd1, Nat.mod_eq_of_lt hd2,
          decide_eq_decide]
        unfold dateBefore
        omega
    · have hpne : ¬(padDigits 2 m1 = padDigits 2 m2) := fun hcc =>
        hmm (padDigits_inj 2 m1 m2 (by omega) (by omega) hcc)
      rw [if_neg hpne, strLt_padDigits, e2, Nat.mod_eq_of_lt hm1, Nat.mod_eq_of_lt hm2,
        decide_eq_decide]
      unfold dateBefore
      omega
  · have hpne : ¬(padDigits 4 y1 = padDigits 4 y2) := fun hcc =>
      hyy (padDigits_inj 4 y1 y2 (by omega) (by omega) hcc)
    rw [if_neg hpne, strLt_padDigits, e4, Nat.mod_eq_of_lt hy1b, Nat.mod_eq_of_lt hy2b,
      decide_eq_decide]
    unfold dateBefore
    omega

/-! ## Day-window collection -/

theorem mem_foldr_append {α β : Type} (f : α → List β) (L : List α) (x : β) :
    x ∈ L.foldr (fun l acc => f l ++ acc) [] ↔ ∃ l ∈ L, x ∈ f l := by
  induction L with
  | nil => simp
  | cons a L ih => simp [ih]

/-- C6: collecting since a cutoff date retains exactly the keys of day logs
dated on or after the cutoff and deletes every cache-entry directory outside
that retained set; day-log files strictly before the cutoff are removed and
the ones on or after it are kept.  Years are assumed four digits and months
and days at most two, as `time.localtime` and a sane caller supply them. -/
theorem day_window_collection (base : List Nat) (s : MemState) (cy cm cd : Nat)
    (hy : ∀ l ∈ s.dayLogs, 1000 ≤ l.year ∧ l.year < 10000)
    (hmd : ∀ l ∈ s.dayLogs, l.month < 100 ∧ l.day < 100)
    (hcy : 1000 ≤ cy) (hcyb : cy < 10000) (hcm : cm < 100) (hcd : cd < 100)
    (hkeys : ∀ l ∈ s.dayLogs, ∀ k ∈ keysOfLog l.content, startsWithLog k = false)
    (hentries : ∀ e ∈ s.entryDirs, startsWithLog e = false) :
    (∀ l, l ∈ (clear_runs_since base s cy cm cd).dayLogs ↔
      l ∈ s.dayLogs ∧ ¬dateBefore l.year l.month l.day cy cm cd)
    ∧ (∀ e, e ∈ (clear_runs_since base s cy cm cd).entryDirs ↔
      e ∈ s.entryDirs ∧ ∃ l ∈ s.dayLogs,
        ¬dateBefore l.year l.month l.day cy cm cd ∧ e ∈ keysOfLog l.content) := by
  have hkeepiff : ∀ l ∈ s.dayLogs,
      keepSince base cy cm cd l = true ↔ ¬dateBefore l.year l.month l.day cy cm cd := by
    intro l hl
    unfold keepSince
    rw [strLt_dayLogPath base l.year l.month l.day cy cm cd
      (hy l hl).1 (hy l hl).2 hcy hcyb (hmd l hl).1 (hmd l hl).2 hcm hcd]
    simp
  have hRR : ∀ x, x ∈ recentlyRun base s cy cm cd ↔
      ∃ l ∈ s.dayLogs, ¬dateBefore l.year l.month l.day cy cm cd ∧
        x ∈ keysOfLog l.content := by
    intro x
    unfold recentlyRun
    rw [mem_foldr_append]
    constructor
    · rintro ⟨l, hlf, hx⟩
      have hm := List.mem_filter.mp hlf
      exact ⟨l, hm.1, (hkeepiff l hm.1).mp hm.2, hx⟩
    · rintro ⟨l, hl, hnb, hx⟩
      exact ⟨l, List.mem_filter.mpr ⟨hl, (hkeepiff l hl).mpr hnb⟩, hx⟩
  have hRRlog : ∀ r ∈ recentlyRun base s cy cm cd, startsWithLog r = false := by
    intro r hr
    obtain ⟨l, hl, _, hk⟩ := (hRR r).mp hr
    exact hkeys l hl r hk
  have hdel := clear_all_but_mem (listingOf s) (recentlyRun base s cy cm cd) hRRlog
  have hdellog : ∀ x ∈ clear_all_but (listingOf s) (recentlyRun base s cy cm cd),
      startsWithLog x = false := fun x hx => ((hdel x).mp hx).2.1
  have hrem_day :
      (remTree s (clear_all_but (listingOf s) (recentlyRun base s cy cm cd))).dayLogs =
        s.dayLogs := by
    show s.dayLogs.filter _ = s.dayLogs
    apply List.filter_eq_self.mpr
    intro l _
    simp only [decide_eq_true_eq]
    intro hmem
    have hfalse := hdellog _ hmem
    rw [startsWithLog_yearDirName] at hfalse
    cases hfalse
  constructor
  · intro l
    show l ∈ (remTree s (clear_all_but (listingOf s)
        (recentlyRun base s cy cm cd))).dayLogs.filter (keepSince base cy cm cd) ↔ _
    rw [hrem_day, List.mem_filter]
    constructor
    · rintro ⟨hl, hk⟩
      exact ⟨hl, (hkeepiff l hl).mp hk⟩
    · rintro ⟨hl, hnb⟩
      exact ⟨hl, (hkeepiff l hl).mpr hnb⟩
  · intro e
    show e ∈ s.entryDirs.filter
        (fun d => decide (d ∉ clear_all_but (listingOf s) (recentlyRun base s cy cm cd))) ↔ _
    rw [List.mem_filter]
    simp only [decide_eq_true_eq]
    constructor
    · rintro ⟨he, hnd⟩
      refine ⟨he, ?_⟩
      by_contra hnot
      apply hnd
      apply (hdel e).mpr
      refine ⟨List.mem_append_left _ he, hentries e he, fun hmemRR => ?_⟩
      exact hnot ((hRR e).mp hmemRR)
    · rintro ⟨he, hex⟩
      refine ⟨he, fun hmemdel => ?_⟩
      exact ((hdel e).mp hmemdel).2.2 ((hRR e).mpr hex)

theorem day_window_collection_witness :
    (∀ l, l ∈ (clear_runs_since [] { emptyMem with
        entryDirs := [['a', 'a'], ['b', 'b'], ['c', 'c']],
        dayLogs := [⟨2020, 1, 2, "aa\n".toList⟩, ⟨2024, 5, 6, "bb\n".toList⟩],
        yearDirs := [2020, 2024] } 2023 1 1).dayLogs ↔
      l ∈ ({ emptyMem with
        entryDirs := [['a', 'a'], ['b', 'b'], ['c', 'c']],
        dayLogs := [⟨2020, 1, 2, "aa\n".toList⟩, ⟨2024, 5, 6, "bb\n".toList⟩],
        yearDirs := [2020, 2024] } : MemState).dayLogs ∧
        ¬dateBefore l.year l.month l.day 2023 1 1)
    ∧ (∀ e, e ∈ (clear_runs_since [] { emptyMem with
        entryDirs := [['a', 'a'], ['b', 'b'], ['c', 'c']],
        dayLogs := [⟨2020, 1, 2, "aa\n".toList⟩, ⟨2024, 5, 6, "bb\n".toList⟩],
        yearDirs := [2020, 2024] } 2023 1 1).entryDirs ↔
      e ∈ ({ emptyMem with
        entryDirs := [['a', 'a'], ['b', 'b'], ['c', 'c']],
        dayLogs := [⟨2020, 1, 2, "aa\n".toList⟩, ⟨2024, 5, 6, "bb\n".toList⟩],
        yearDirs := [2020, 2024] } : MemState).entryDirs ∧
        ∃ l ∈ ({ emptyMem with
          entryDirs := [['a', 'a'], ['b', 'b'], ['c', 'c']],
          dayLogs := [⟨2020, 1, 2, "aa\n".toList⟩, ⟨2024, 5, 6, "bb\n".toList⟩],
          yearDirs := [2020, 2024] } : MemState).dayLogs,
          ¬dateBefore l.year l.month l.day 2023 1 1 ∧ e ∈ keysOfLog l.content) :=
  day_window_collection [] { emptyMem with
      entryDirs := [['a', 'a'], ['b', 'b'], ['c', 'c']],
      dayLogs := [⟨2020, 1, 2, "aa\n".toList⟩, ⟨2024, 5, 6, "bb\n".toList⟩],
      yearDirs := [2020, 2024] } 2023 1 1
    (by decide) (by decide) (by decide) (by decide) (by decide) (by decide)
    (by decide) (by decide)

end Nipeep
